import Mathlib

/-!
Verification of the pitch-class-set canonicalization and conversion engine
(`ann-music-pc`). The definitions below are shallow embeddings of the
TypeScript source: `methods.ts` (codec, validators, set algebra, modes),
`properties.ts` (the `PC` constructor/dispatcher and `PcBuild` deriver),
and the earlier module variants (`listToSetChroma`). External collaborators
(the Note and Interval resolvers of `ann-music-note` / `ann-music-interval`)
are modelled as an abstract environment, as the spec designates them
out of scope with the contract `{valid, chroma : 0..11, name}`.
-/

namespace AnnMusicPc

/-- Character for one binary digit, as produced by JS `Number.toString(2)`. -/
def binChar (n : Nat) : Char := if n = 1 then '1' else '0'

/-- Fuelled binary printer: `toBinAux fuel n` is the list of binary digit
characters of `n`, most significant first, provided `n ≤ fuel`.
Models JS `Number(num).toString(2)` for non-negative integers. -/
def toBinAux : Nat → Nat → List Char
  | 0, n => [binChar n]
  | fuel + 1, n =>
    if n < 2 then [binChar n] else toBinAux fuel (n / 2) ++ [binChar (n % 2)]

/-- Binary digit characters of `n`, most significant first (`"0"` for 0). -/
def natToBinChars (n : Nat) : List Char := toBinAux n n

/-- JS `String.prototype.padStart(target, c)` on a character list: prepends
`c` until the length reaches `target`; longer inputs are returned unchanged
(truncated subtraction yields zero padding). -/
def padStartL (target : Nat) (c : Char) (l : List Char) : List Char :=
  List.replicate (target - l.length) c ++ l

/-- Embedding of `Chroma.fromNum` in `methods.ts`:
`Number(num).toString(2).padStart(12, '0')`. -/
def fromNum (num : Int) : String := ⟨padStartL 12 '0' (natToBinChars num.toNat)⟩

/-- Whether a character is a binary digit (accepted by `parseInt(_, 2)`). -/
def binDigit (c : Char) : Bool := c == '0' || c == '1'

/-- One step of base-2 accumulation while parsing. -/
def bvStep (a : Nat) (c : Char) : Nat := 2 * a + (if c == '1' then 1 else 0)

/-- Value of a list of binary digit characters, most significant first. -/
def binVal (l : List Char) : Nat := l.foldl bvStep 0

/-- Embedding of `Chroma.toNum` in `methods.ts`: `parseInt(chroma, 2)`, which consumes
the longest prefix of binary digits. -/
def toNum (s : String) : Nat := binVal (s.data.takeWhile binDigit)

/-- External collaborators of the core, per the spec: the Note resolver
(validity plus pitch-class index 0..11 for a note name), the Interval
resolver (validity plus pitch-class index for an interval name), and the
canonical interval name at a numeric index (`Interval(i).name`).
`none` models an invalid name. -/
structure Env where
  noteChroma : String → Option (Fin 12)
  ivlChroma : String → Option (Fin 12)
  ivlName : Nat → String

/-- The regex `^[01]{12}$` of `Validators.isPcChroma`: exactly 12
characters, each `'0'` or `'1'`. -/
def isChromaStr (s : String) : Bool :=
  s.data.length == 12 && s.data.all binDigit

/-- JS `Array.prototype.map` passes the element index as second callback
argument; `mapWithIndexGo f n l` maps `f` over `l` with indices from `n`. -/
def mapWithIndexGo (f : Nat → α → β) : Nat → List α → List β
  | _, [] => []
  | n, x :: xs => f n x :: mapWithIndexGo f (n + 1) xs

/-- Map with element indices starting at 0, as JS `map((v, i) => ...)`. -/
def mapWithIndex (f : Nat → α → β) (l : List α) : List β :=
  mapWithIndexGo f 0 l

/-- Embedding of `Chroma.toIntervals` in `methods.ts`: map each chroma character to the
canonical interval name at its index when it is `'1'` (else `null`), then
filter out the nulls. -/
def toIntervals (env : Env) (s : String) : List String :=
  (mapWithIndex
    (fun i val => if val == '1' then some (env.ivlName i) else none)
    s.data).reduceOption

/-- Stated from the spec's words, for the refinement comparison of the
`intervals` property: pair each index 0..11 with the chroma character at
that index, keep the indices whose bit is set, and look up the canonical
interval name at each, indices increasing. -/
def specIntervals (env : Env) (s : String) : List String :=
  (((List.range 12).zip s.data).filter (fun p => p.2 == '1')).map
    (fun p => env.ivlName p.1)

/-- First index of a character in a list (JS `String.prototype.indexOf`
yields this index, or -1 when absent). -/
def firstIdx (c : Char) : List Char → Option Nat
  | [] => none
  | x :: xs => if x == c then some 0 else (firstIdx c xs).map (· + 1)

/-- JS `String.prototype.indexOf`: first index of `c`, or -1. -/
def jsIndexOf (l : List Char) (c : Char) : Int :=
  match firstIdx c l with
  | some i => (i : Int)
  | none => -1

/-- JS `String.prototype.slice` index resolution: a negative index counts
from the end (clamped at 0), a non-negative one is clamped at the length. -/
def jsSliceClamp (len : Nat) (i : Int) : Nat :=
  if i < 0 then ((len : Int) + i).toNat else min i.toNat len

/-- JS `String.prototype.slice(a, b)`: the characters of positions
`[resolve a, resolve b)`. -/
def jsSlice (l : List Char) (a b : Int) : List Char :=
  (l.take (jsSliceClamp l.length b)).drop (jsSliceClamp l.length a)

/-- List-level `Methods.normalize` of `methods.ts`:
`chroma.slice(chroma.indexOf('1'), 12) + chroma.slice(0, chroma.indexOf('1'))`. -/
def normalizeL (l : List Char) : List Char :=
  let first := jsIndexOf l '1'
  jsSlice l first 12 ++ jsSlice l 0 first

/-- Embedding of `Methods.normalize`: rotate the chroma so it starts at its first set
bit (with JS slice semantics when no bit is set). -/
def normalize (s : String) : String := ⟨normalizeL s.data⟩

/-- Render the 0/1 bit list built by the list conversions as a string
(JS `binary.join('')` on an array of the numbers 0 and 1). -/
def joinBits (bits : List Nat) : String :=
  ⟨bits.map (fun b => if b == 1 then '1' else '0')⟩

/-- The 12-slot zero bit array `Array(12).fill(0)`. -/
def zeroBits : List Nat := List.replicate 12 0

/-- The empty-set chroma string. -/
def emptyChroma : String := "000000000000"

/-- Loop body of `Chroma.fromNotes` in `methods.ts`: resolve each name via
the Note collaborator and set its pitch-class bit when valid; invalid
names are skipped. -/
def fromNotesGo (env : Env) : List String → List Nat → List Nat
  | [], bits => bits
  | name :: rest, bits =>
    match env.noteChroma name with
    | some c => fromNotesGo env rest (bits.set c.val 1)
    | none => fromNotesGo env rest bits

/-- Embedding of `Chroma.fromNotes` in `methods.ts`: empty input yields the empty
chroma; otherwise bits of validly resolving notes are set and the bit
array is joined. -/
def fromNotes (env : Env) (set : List String) : String :=
  if set.isEmpty then emptyChroma else joinBits (fromNotesGo env set zeroBits)

/-- Loop body of `Chroma.fromIntervals` in `methods.ts`, mirroring
`fromNotesGo` with the Interval collaborator. -/
def fromIntervalsGo (env : Env) : List String → List Nat → List Nat
  | [], bits => bits
  | name :: rest, bits =>
    match env.ivlChroma name with
    | some c => fromIntervalsGo env rest (bits.set c.val 1)
    | none => fromIntervalsGo env rest bits

/-- Embedding of `Chroma.fromIntervals` in `methods.ts`. -/
def fromIntervals (env : Env) (set : List String) : String :=
  if set.isEmpty then emptyChroma
  else joinBits (fromIntervalsGo env set zeroBits)

/-- Loop of `listToSetChroma` (earlier module variant, `part_002`): the
`pitch` variable is declared outside the loop, so an element that is
neither a valid note nor a valid interval leaves `pitch` holding the
previous iteration's resolution; only when `pitch` was never assigned
(`!pitch`) does the function bail out with the empty chroma. -/
def listToSetChromaGo (env : Env) :
    List String → Option (Fin 12) → List Nat → String
  | [], _, bits => joinBits bits
  | name :: rest, pitch, bits =>
    let pitch' :=
      match env.ivlChroma name with
      | some c => some c
      | none =>
        match env.noteChroma name with
        | some c => some c
        | none => pitch
    match pitch' with
    | none => emptyChroma
    | some c => listToSetChromaGo env rest (some c) (bits.set c.val 1)

/-- Embedding of `listToSetChroma` from the earlier module variant. -/
def listToSetChroma (env : Env) (set : List String) : String :=
  if set.isEmpty then emptyChroma
  else listToSetChromaGo env set none zeroBits

/-- The pitch-class-set properties record (`PcProperties` of `types.ts`). -/
structure PcProperties where
  pcnum : Nat
  chroma : String
  normalized : String
  intervals : List String
  length : Nat
  empty : Bool
deriving DecidableEq, Repr

/-- Modelled from the spec: the empty-set constant `EmptyPc` lives in
`theory.ts`, which is absent from the sources; the spec fixes it as chroma
`"000000000000"`, pcnum 0, normalized equal to itself, empty intervals,
length 0, empty true. -/
def EmptyPc : PcProperties :=
  { pcnum := 0
    chroma := emptyChroma
    normalized := emptyChroma
    intervals := []
    length := 0
    empty := true }

/-- The constructor input shape (`PcInit` of `types.ts`): every supported
field is optional, `none` modelling an absent (`undefined`) field. -/
structure PcInit where
  pcnum : Option Int := none
  chroma : Option String := none
  intervals : Option (List String) := none
  notes : Option (List String) := none
  note : Option String := none
  interval : Option String := none

/-- Embedding of `Validators.isPcChroma` applied to an optional field: the regex fails
on an absent value. -/
def isPcChroma (o : Option String) : Bool :=
  match o with
  | some s => isChromaStr s
  | none => false

/-- Embedding of `Validators.isPcNum`: a number within the segment 0..4095. -/
def isPcNum (o : Option Int) : Bool :=
  match o with
  | some n => decide (0 ≤ n) && decide (n ≤ 4095)
  | none => false

/-- Embedding of `NOTE.Validators.isName` on the optional `note` field: valid iff the
external Note collaborator resolves the name. -/
def isNoteName (env : Env) (o : Option String) : Bool :=
  match o with
  | some n => (env.noteChroma n).isSome
  | none => false

/-- Embedding of `INTERVAL.Validators.isIntervalName` on the optional `interval` field. -/
def isIntervalName (env : Env) (o : Option String) : Bool :=
  match o with
  | some n => (env.ivlChroma n).isSome
  | none => false

/-- Embedding of `Validators.isNoteArray` in `methods.ts`: destructures only the first
two elements (`const [first, second] = notes`) and requires both to be
valid note names; a missing element destructures to `undefined`, which is
not a valid name. -/
def isNoteArray (env : Env) (o : Option (List String)) : Bool :=
  match o with
  | some notes =>
    (match notes[0]? with
     | some n => (env.noteChroma n).isSome
     | none => false) &&
    (match notes[1]? with
     | some n => (env.noteChroma n).isSome
     | none => false)
  | none => false

/-- Embedding of `Validators.isIntervalArray` in `methods.ts`: same first-two-element
check with the Interval collaborator. -/
def isIntervalArray (env : Env) (o : Option (List String)) : Bool :=
  match o with
  | some ivls =>
    (match ivls[0]? with
     | some n => (env.ivlChroma n).isSome
     | none => false) &&
    (match ivls[1]? with
     | some n => (env.ivlChroma n).isSome
     | none => false)
  | none => false

/-- Embedding of `PcBuild` in `properties.ts`: derives the full record from a chroma
string; note that `intervals` is computed from the *normalized* chroma
(`const intervals = toIntervals(normalized)`). -/
def PcBuild (env : Env) (chroma : String) : PcProperties :=
  { pcnum := toNum chroma
    chroma := chroma
    normalized := normalize chroma
    intervals := toIntervals env (normalize chroma)
    length := (chroma.data.filter (fun c => c == '1')).length
    empty := (chroma.data.filter (fun c => c == '1')).length == 0 }

/-- The `PC` dispatch chain of `properties.ts` as written: the input
fields are tried in precedence order (chroma, pcnum, single note, note
list, single interval, interval list), the single-name checks standing for
the `NOTE.Validators.isName` / `INTERVAL.Validators.isIntervalName`
predicates the source names; when none matches, the `PcError` line returns
the spec's empty-set record with the error signal (second component
`true`). Note that as executed the source destructures `isNoteName` and
`isIntervalName` from a `Validators` object that lacks them, so rules 3-6
and this fallback are unreachable — `PCrun` below embeds that as-executed
behavior; `PCc` is the chain the source spells out rule by rule, and the
claims proved over it only exercise paths on which the two agree. -/
def PCc (env : Env) (init : PcInit) : PcProperties × Bool :=
  if isPcChroma init.chroma then (PcBuild env (init.chroma.getD ""), false)
  else if isPcNum init.pcnum then
    (PcBuild env (fromNum (init.pcnum.getD 0)), false)
  else if isNoteName env init.note then
    (PcBuild env (fromNotes env [init.note.getD ""]), false)
  else if isNoteArray env init.notes then
    (PcBuild env (fromNotes env (init.notes.getD [])), false)
  else if isIntervalName env init.interval then
    (PcBuild env (fromIntervals env [init.interval.getD ""]), false)
  else if isIntervalArray env init.intervals then
    (PcBuild env (fromIntervals env (init.intervals.getD [])), false)
  else (EmptyPc, true)

/-- The returned properties record of the `PC` dispatcher. -/
def PC (env : Env) (init : PcInit) : PcProperties := (PCc env init).1

/-- The `PC` dispatcher of `properties.ts` as executed: the source reads
`const { ..., isNoteName, isIntervalName } = Validators` but the
`Validators` object of `methods.ts` carries neither key, so both are
`undefined` and the call `isNoteName(note)` at dispatch rule 3 throws a
TypeError for every input that fails the chroma and pcnum checks. `none`
models that crash; rules 3-6 and the `PcError`/`EmptyPc` fallback of the
source are dead code. -/
def PCrun (env : Env) (init : PcInit) : Option (PcProperties × Bool) :=
  if isPcChroma init.chroma then some (PcBuild env (init.chroma.getD ""), false)
  else if isPcNum init.pcnum then
    some (PcBuild env (fromNum (init.pcnum.getD 0)), false)
  else none

/-- Embedding of `Methods.isEqual`: equality of the numeric identifiers. -/
def isEqual (env : Env) (one other : PcInit) : Bool :=
  decide ((PC env one).pcnum = (PC env other).pcnum)

/-- Embedding of `Methods.isSubsetOf`: `s !== o && (o & s) === o` over the pcnums. -/
def isSubsetOf (env : Env) (set notes : PcInit) : Bool :=
  let s := (PC env set).pcnum
  let o := (PC env notes).pcnum
  decide (s ≠ o) && decide ((o &&& s) = o)

/-- Embedding of `Methods.isSupersetOf`: `s !== o && (o | s) === o` over the pcnums. -/
def isSupersetOf (env : Env) (set notes : PcInit) : Bool :=
  let s := (PC env set).pcnum
  let o := (PC env notes).pcnum
  decide (s ≠ o) && decide ((o ||| s) = o)

/-- Embedding of `BaseArray.rotate` from the external base library: left rotation of a
list by `i` places. -/
def rotateL (i : Nat) (l : List α) : List α :=
  l.drop (i % l.length) ++ l.take (i % l.length)

/-- Embedding of `Methods.modes` in `methods.ts`: map each index of the chroma to its
left rotation, drop (as `null`) those starting with `'0'` when
`normalized` is requested, and `compact` away the nulls. -/
def modes (env : Env) (set : PcInit) (normalized : Bool) : List String :=
  let binary := (PC env set).chroma.data
  (mapWithIndex
    (fun i _ =>
      if normalized && ((rotateL i binary).head? == some '0') then none
      else some (String.mk (rotateL i binary)))
    binary).reduceOption

/-- A concrete test environment: a handful of note names (C, D, E, G) and
interval names (1P, 2M, 3M, 5P) resolve to their pitch classes; every
other name is invalid. Interval index lookup follows the canonical
chromatic interval names. -/
def env0 : Env where
  noteChroma := fun s =>
    if s = "C" then some 0 else if s = "D" then some 2
    else if s = "E" then some 4 else if s = "G" then some 7 else none
  ivlChroma := fun s =>
    if s = "1P" then some 0 else if s = "2M" then some 2
    else if s = "3M" then some 4 else if s = "5P" then some 7 else none
  ivlName := fun i =>
    List.getD
      ["1P", "2m", "2M", "3m", "3M", "4P", "4A", "5P", "6m", "6M", "7m", "7M"]
      i ""

theorem toBinAux_mem : ∀ fuel n, ∀ c ∈ toBinAux fuel n, c = '0' ∨ c = '1' := by
  intro fuel
  induction fuel with
  | zero =>
    intro n c hc
    simp only [toBinAux, List.mem_singleton] at hc
    subst hc
    unfold binChar
    split <;> simp
  | succ fuel ih =>
    intro n c hc
    simp only [toBinAux] at hc
    split at hc
    · simp only [List.mem_singleton] at hc
      subst hc
      unfold binChar
      split <;> simp
    · rcases List.mem_append.mp hc with h | h
      · exact ih _ c h
      · simp only [List.mem_singleton] at h
        subst h
        unfold binChar
        split <;> simp

theorem foldl_bvStep_replicate (k : Nat) (a : Nat) :
    List.foldl bvStep a (List.replicate k '0') = a * 2 ^ k := by
  induction k generalizing a with
  | zero => simp
  | succ k ih =>
    have hb : bvStep a '0' = 2 * a := by
      show 2 * a + (if ('0' : Char) == '1' then 1 else 0) = 2 * a
      norm_num [show (('0' : Char) == '1') = false from rfl]
    rw [List.replicate_succ, List.foldl_cons, hb, ih, pow_succ]
    ring

theorem toBinAux_foldl : ∀ fuel n a, n ≤ fuel →
    List.foldl bvStep a (toBinAux fuel n) =
      a * 2 ^ (toBinAux fuel n).length + n := by
  intro fuel
  induction fuel with
  | zero =>
    intro n a hn
    interval_cases n
    simp [toBinAux, binChar, bvStep]
    ring
  | succ fuel ih =>
    intro n a hn
    by_cases h2 : n < 2
    · interval_cases n <;> simp [toBinAux, binChar, bvStep] <;> ring
    · have hrec : n / 2 ≤ fuel := by
        have := Nat.div_lt_self (by omega : 0 < n) (by omega : 1 < 2)
        omega
      simp only [toBinAux, if_neg h2]
      rw [List.foldl_append, ih _ a hrec]
      simp only [List.foldl_cons, List.foldl_nil, List.length_append,
        List.length_singleton]
      unfold bvStep binChar
      have hmod : n % 2 = 0 ∨ n % 2 = 1 := by omega
      have hdm : 2 * (n / 2) + n % 2 = n := by omega
      rcases hmod with hm | hm <;> simp [hm] <;> ring_nf <;> omega

theorem takeWhile_all_binDigit :
    ∀ l : List Char, (∀ c ∈ l, binDigit c = true) → l.takeWhile binDigit = l := by
  intro l h
  induction l with
  | nil => rfl
  | cons x xs ih =>
    rw [List.takeWhile_cons, h x (List.mem_cons_self _ _)]
    simp [ih fun c hc => h c (List.mem_cons_of_mem _ hc)]

/-- C6: for every integer n with 0 ≤ n ≤ 4095, converting n to its
12-character zero-padded binary chroma string (`Chroma.fromNum`) and parsing
it back as a base-2 integer (`Chroma.toNum`) returns exactly n. -/
theorem c6_pcnum_chroma_roundtrip (n : Nat) (h : n ≤ 4095) :
    toNum (fromNum (n : Int)) = n := by
  unfold toNum fromNum
  have htn : ((n : Int)).toNat = n := Int.toNat_ofNat n
  rw [htn]
  show binVal ((padStartL 12 '0' (natToBinChars n)).takeWhile binDigit) = n
  have hbin : ∀ c ∈ padStartL 12 '0' (natToBinChars n), binDigit c = true := by
    intro c hc
    unfold padStartL at hc
    rcases List.mem_append.mp hc with hr | hb
    · have : c = '0' := List.eq_of_mem_replicate hr
      subst this
      rfl
    · rcases toBinAux_mem n n c hb with h0 | h1 <;> subst_vars <;> rfl
  rw [takeWhile_all_binDigit _ hbin]
  unfold padStartL binVal natToBinChars
  rw [List.foldl_append, foldl_bvStep_replicate,
    toBinAux_foldl n n (0 * 2 ^ (12 - (toBinAux n n).length)) (le_refl n)]
  simp

/-- Witness for C6 at n = 2741. -/
theorem c6_pcnum_chroma_roundtrip_witness :
    2741 ≤ 4095 ∧ toNum (fromNum ((2741 : Nat) : Int)) = 2741 :=
  ⟨by decide, c6_pcnum_chroma_roundtrip 2741 (by decide)⟩

/-- C1: the claim (and the spec's fail-soft policy) says a list containing
any invalid note yields the all-zero chroma; the code does not do this.
At the failing input `["C", "not-a-note"]`, `Chroma.fromNotes` of
`methods.ts` silently skips the invalid name and returns the partial
chroma `"100000000000"`, and `listToSetChroma` of the earlier variant
returns the same because its `pitch` variable still holds the previous
iteration's valid resolution, defeating its own `!pitch` bail-out. -/
theorem c1_fail_soft_violated :
    fromNotes env0 ["C", "not-a-note"] = "100000000000" ∧
    listToSetChroma env0 ["C", "not-a-note"] = "100000000000" ∧
    ("100000000000" : String) ≠ "000000000000" :=
  ⟨by decide, by decide, by decide⟩

/-- C2: the claim says the list-acceptance validators accept exactly the
lists whose every element is valid; the code inspects only the first two
elements. At the failing inputs: the single-element list `["C"]` (its only
element a valid note name) is rejected, while `["C", "D", "zzz"]` (third
element invalid) is accepted; the interval validator behaves the same. -/
theorem c2_validators_check_first_two_only :
    isNoteArray env0 (some ["C"]) = false ∧
    (env0.noteChroma "C").isSome = true ∧
    isNoteArray env0 (some ["C", "D", "zzz"]) = true ∧
    (env0.noteChroma "zzz").isSome = false ∧
    isIntervalArray env0 (some ["1P"]) = false ∧
    (env0.ivlChroma "1P").isSome = true :=
  ⟨by decide, by decide, by decide, by decide, by decide, by decide⟩

/-- C3 counterexample: at chroma `"010000000000"` the `intervals` field
produced by the dispatcher is not the interval names at the set indices of
the raw chroma (which would be the name at index 1): `PcBuild` computes
the intervals from the normalized chroma instead. -/
theorem c3_intervals_not_from_raw_chroma :
    (PC env0 { chroma := some "010000000000" }).intervals ≠
      specIntervals env0 "010000000000" ∧
    (PC env0 { chroma := some "010000000000" }).intervals = ["1P"] ∧
    specIntervals env0 "010000000000" = ["2m"] :=
  ⟨by decide, by decide, by decide⟩

/-- C4: constructor dispatch precedence puts a valid chroma string before
every other input shape — whenever the `chroma` field holds a valid chroma
the record is built from it directly, whatever else the input carries; in
particular `{chroma: "100000000000", notes: ["D"]}` yields pcnum 2048. -/
theorem c4_chroma_wins_dispatch :
    (∀ (env : Env) (init : PcInit) (s : String),
      init.chroma = some s → isChromaStr s = true →
      PC env init = PcBuild env s) ∧
    (PC env0 { chroma := some "100000000000", notes := some ["D"] }).pcnum
      = 2048 := by
  constructor
  · intro env init s hc hv
    unfold PC PCc
    rw [hc]
    simp [isPcChroma, hv]
  · decide

/-- Witness for C4 at the scenario input. -/
theorem c4_chroma_wins_dispatch_witness :
    isChromaStr "100000000000" = true ∧
    PC env0 { chroma := some "100000000000", notes := some ["D"] } =
      PcBuild env0 "100000000000" :=
  ⟨by decide,
    c4_chroma_wins_dispatch.1 env0
      { chroma := some "100000000000", notes := some ["D"] }
      "100000000000" rfl (by decide)⟩

/-- C5: the claim says an input with no recognized valid field makes the
constructor signal an invalid-constructor error and still return the
empty-set properties record; in the source the name validators
destructured at dispatch rules 3 and 5 are `undefined`, so such an input
(here the empty input, which fails the chroma and pcnum checks as shown)
throws a TypeError before the `PcError`/`EmptyPc` fallback is reached:
the dispatcher as executed crashes (`none`) instead of returning the
empty-set record the source's own fallback line intends. -/
theorem c5_invalid_constructor_crashes :
    PCrun env0 {} = none ∧
    isPcChroma ({} : PcInit).chroma = false ∧
    isPcNum ({} : PcInit).pcnum = false ∧
    EmptyPc =
      { pcnum := 0, chroma := "000000000000", normalized := "000000000000",
        intervals := [], length := 0, empty := true } :=
  ⟨by decide, by decide, by decide, rfl⟩

theorem isChromaStr_iff (s : String) :
    isChromaStr s = true ↔
      s.data.length = 12 ∧ ∀ c ∈ s.data, binDigit c = true := by
  unfold isChromaStr
  rw [Bool.and_eq_true, beq_iff_eq, List.all_eq_true]

theorem firstIdx_lt_length {c : Char} :
    ∀ {l : List Char} {k : Nat}, firstIdx c l = some k → k < l.length := by
  intro l
  induction l with
  | nil => intro k h; exact Option.noConfusion h
  | cons x xs ih =>
    intro k h
    unfold firstIdx at h
    by_cases hx : (x == c) = true
    · rw [if_pos hx] at h
      cases h
      simp
    · rw [if_neg hx] at h
      cases hfi : firstIdx c xs with
      | none => rw [hfi] at h; exact Option.noConfusion h
      | some j =>
        rw [hfi] at h
        simp only [Option.map_some', Option.some_inj] at h
        have := ih hfi
        simp only [List.length_cons]
        omega

theorem firstIdx_drop {c : Char} :
    ∀ {l : List Char} {k : Nat}, firstIdx c l = some k →
      ∃ t, l.drop k = c :: t := by
  intro l
  induction l with
  | nil => intro k h; exact Option.noConfusion h
  | cons x xs ih =>
    intro k h
    unfold firstIdx at h
    by_cases hx : (x == c) = true
    · rw [if_pos hx] at h
      cases h
      exact ⟨xs, by simp [List.drop, beq_iff_eq.mp hx]⟩
    · rw [if_neg hx] at h
      cases hfi : firstIdx c xs with
      | none => rw [hfi] at h; exact Option.noConfusion h
      | some j =>
        rw [hfi] at h
        simp only [Option.map_some', Option.some_inj] at h
        obtain ⟨t, ht⟩ := ih hfi
        exact ⟨t, by rw [← h]; simpa [List.drop] using ht⟩

theorem firstIdx_none {c : Char} :
    ∀ {l : List Char}, firstIdx c l = none → ∀ x ∈ l, x ≠ c := by
  intro l
  induction l with
  | nil => intro _ x hx; simp at hx
  | cons y ys ih =>
    intro h x hx
    unfold firstIdx at h
    by_cases hy : (y == c) = true
    · rw [if_pos hy] at h; simp at h
    · rw [if_neg hy] at h
      rcases List.mem_cons.mp hx with hxy | hxs
      · subst hxy
        exact fun he => hy (beq_iff_eq.mpr he)
      · cases hfi : firstIdx c ys with
        | none => exact ih hfi x hxs
        | some j => rw [hfi] at h; simp at h

theorem chroma_no_one_eq_replicate {l : List Char} (hlen : l.length = 12)
    (hbin : ∀ x ∈ l, binDigit x = true) (h : firstIdx '1' l = none) :
    l = List.replicate 12 '0' := by
  refine List.eq_replicate_iff.mpr ⟨hlen, ?_⟩
  intro b hb
  have h1 := firstIdx_none h b hb
  have h2 := hbin b hb
  unfold binDigit at h2
  rw [Bool.or_eq_true, beq_iff_eq, beq_iff_eq] at h2
  tauto

theorem normalizeL_replicate_zero :
    normalizeL (List.replicate 12 '0') = List.replicate 12 '0' := by decide

theorem jsSliceClamp_nonneg (len : Nat) {i : Int} (h : 0 ≤ i) :
    jsSliceClamp len i = min i.toNat len := by
  unfold jsSliceClamp
  rw [if_neg (not_lt.mpr h)]

theorem normalizeL_of_some {l : List Char} {k : Nat} (hlen : l.length = 12)
    (h : firstIdx '1' l = some k) :
    normalizeL l = l.drop k ++ l.take k := by
  have hk : k < 12 := hlen ▸ firstIdx_lt_length h
  have c1 : jsSliceClamp l.length ((k : Nat) : Int) = k := by
    rw [jsSliceClamp_nonneg _ (Int.natCast_nonneg k), Int.toNat_ofNat, hlen]
    omega
  have c2 : jsSliceClamp l.length 12 = 12 := by
    rw [jsSliceClamp_nonneg _ (by omega : (0 : Int) ≤ 12), hlen]
    decide
  have c3 : jsSliceClamp l.length 0 = 0 := by
    rw [jsSliceClamp_nonneg _ (le_refl (0 : Int)), hlen]
    decide
  show jsSlice l (jsIndexOf l '1') 12 ++ jsSlice l 0 (jsIndexOf l '1')
    = l.drop k ++ l.take k
  unfold jsIndexOf
  rw [h]
  unfold jsSlice
  rw [c1, c2, c3, List.drop_zero]
  congr 1
  rw [show (12 : Nat) = l.length from hlen.symm, List.take_length]

theorem normalizeL_cons_one {t : List Char} (hlen : t.length = 11) :
    normalizeL ('1' :: t) = '1' :: t := by
  have hl : ('1' :: t).length = 12 := by simp [hlen]
  have hfi : firstIdx '1' ('1' :: t) = some 0 := by
    unfold firstIdx
    rw [if_pos (by rfl)]
  rw [normalizeL_of_some hl hfi]
  simp

theorem normalizeL_idem {l : List Char} (hlen : l.length = 12)
    (hbin : ∀ x ∈ l, binDigit x = true) :
    normalizeL (normalizeL l) = normalizeL l := by
  cases hfi : firstIdx '1' l with
  | none =>
    have hrep := chroma_no_one_eq_replicate hlen hbin hfi
    rw [hrep]
    decide
  | some k =>
    obtain ⟨t, hdrop⟩ := firstIdx_drop hfi
    have hk : k < 12 := hlen ▸ firstIdx_lt_length hfi
    rw [normalizeL_of_some hlen hfi, hdrop]
    show normalizeL ('1' :: (t ++ l.take k)) = '1' :: (t ++ l.take k)
    apply normalizeL_cons_one
    have hdl : (l.drop k).length = 12 - k := by rw [List.length_drop, hlen]
    rw [hdrop] at hdl
    simp only [List.length_cons] at hdl
    rw [List.length_append, List.length_take]
    omega

theorem normalizeL_length {l : List Char} (hlen : l.length = 12)
    (hbin : ∀ x ∈ l, binDigit x = true) : (normalizeL l).length = 12 := by
  cases hfi : firstIdx '1' l with
  | none =>
    rw [chroma_no_one_eq_replicate hlen hbin hfi, normalizeL_replicate_zero]
    decide
  | some k =>
    have hk : k < 12 := hlen ▸ firstIdx_lt_length hfi
    rw [normalizeL_of_some hlen hfi, List.length_append, List.length_drop,
      List.length_take, hlen]
    omega

/-- C9: normalization is idempotent on every valid 12-character binary
chroma, and the all-zero chroma normalizes to itself. -/
theorem c9_normalize_idempotent :
    (∀ c : String, isChromaStr c = true →
      normalize (normalize c) = normalize c) ∧
    normalize "000000000000" = "000000000000" := by
  refine ⟨?_, by decide⟩
  intro c h
  obtain ⟨hlen, hbin⟩ := (isChromaStr_iff c).mp h
  show (⟨normalizeL (normalize c).data⟩ : String) = normalize c
  have hd : (normalize c).data = normalizeL c.data := rfl
  rw [hd]
  show (⟨normalizeL (normalizeL c.data)⟩ : String) = ⟨normalizeL c.data⟩
  rw [normalizeL_idem hlen hbin]

/-- Witness for C9 at chroma "001011000000". -/
theorem c9_normalize_idempotent_witness :
    isChromaStr "001011000000" = true ∧
    normalize (normalize "001011000000") = normalize "001011000000" :=
  ⟨by decide, c9_normalize_idempotent.1 "001011000000" (by decide)⟩

theorem mapWithIndexGo_ivl (env : Env) :
    ∀ (l : List Char) (n : Nat),
      (mapWithIndexGo
        (fun i val => if val == '1' then some (env.ivlName i) else none)
        n l).reduceOption =
      (((List.range' n l.length).zip l).filter (fun p => p.2 == '1')).map
        (fun p => env.ivlName p.1) := by
  intro l
  induction l with
  | nil => intro n; rfl
  | cons x xs ih =>
    intro n
    cases hx : (x == '1') with
    | true =>
      simp only [mapWithIndexGo]
      rw [if_pos hx, List.reduceOption_cons_of_some]
      simp only [List.length_cons, List.range'_succ, List.zip_cons_cons,
        List.filter_cons]
      rw [if_pos (show ((n, x).2 == '1') = true from hx), List.map_cons,
        ih (n + 1)]
    | false =>
      simp only [mapWithIndexGo]
      rw [if_neg (show ¬((x == '1') = true) from by simp [hx]),
        List.reduceOption_cons_of_none]
      simp only [List.length_cons, List.range'_succ, List.zip_cons_cons,
        List.filter_cons]
      rw [if_neg (show ¬(((n, x).2 == '1') = true) from by simp [hx])]
      exact ih (n + 1)

theorem toIntervals_eq_spec (env : Env) (s : String)
    (hlen : s.data.length = 12) : toIntervals env s = specIntervals env s := by
  unfold toIntervals specIntervals mapWithIndex
  rw [mapWithIndexGo_ivl env s.data 0, hlen, List.range_eq_range']

/-- C3 amended: for every valid chroma c, the `intervals` field of the
properties record equals the ordered list of canonical interval names at
exactly those indices 0..11 of `normalize c` (the chroma rotated to its
first set bit) where the bit is set, indices increasing. -/
theorem c3_intervals_from_normalized (env : Env) (c : String)
    (h : isChromaStr c = true) :
    (PcBuild env c).intervals = specIntervals env (normalize c) := by
  obtain ⟨hlen, hbin⟩ := (isChromaStr_iff c).mp h
  show toIntervals env (normalize c) = specIntervals env (normalize c)
  exact toIntervals_eq_spec env (normalize c) (normalizeL_length hlen hbin)

/-- Witness for the amended C3 at chroma "010000000000". -/
theorem c3_intervals_from_normalized_witness :
    isChromaStr "010000000000" = true ∧
    (PcBuild env0 "010000000000").intervals =
      specIntervals env0 (normalize "010000000000") :=
  ⟨by decide, c3_intervals_from_normalized env0 "010000000000" (by decide)⟩

theorem land_imp_lor {x y : Nat} (h : x &&& y = x) : y ||| x = y := by
  apply Nat.eq_of_testBit_eq
  intro i
  have hb := congrArg (fun z => z.testBit i) h
  simp only [Nat.testBit_and] at hb
  rw [Nat.testBit_or]
  cases hx : x.testBit i <;> cases hy : y.testBit i <;>
    simp [hx, hy] at hb ⊢

/-- C7: for all accepted inputs A and B, `isSubsetOf A B = true` implies
`isSupersetOf B A = true`, and `isEqual A B = true` makes both strict
containment tests false. -/
theorem c7_subset_superset_laws (env : Env) (a b : PcInit) :
    (isSubsetOf env a b = true → isSupersetOf env b a = true) ∧
    (isEqual env a b = true →
      isSubsetOf env a b = false ∧ isSupersetOf env a b = false) := by
  constructor
  · intro h
    simp only [isSubsetOf, Bool.and_eq_true, decide_eq_true_eq] at h
    obtain ⟨hne, hand⟩ := h
    simp only [isSupersetOf, Bool.and_eq_true, decide_eq_true_eq]
    exact ⟨fun he => hne he.symm, land_imp_lor hand⟩
  · intro h
    simp only [isEqual, decide_eq_true_eq] at h
    constructor
    · simp [isSubsetOf, h]
    · simp [isSupersetOf, h]

/-- Witness for C7: {C, C#} vs {C} for the implication, {C, C#} with
itself for the equality part. -/
theorem c7_subset_superset_laws_witness :
    isSupersetOf env0 { chroma := some "100000000000" }
      { chroma := some "110000000000" } = true ∧
    isSubsetOf env0 { chroma := some "110000000000" }
      { chroma := some "110000000000" } = false ∧
    isSupersetOf env0 { chroma := some "110000000000" }
      { chroma := some "110000000000" } = false :=
  ⟨(c7_subset_superset_laws env0 { chroma := some "110000000000" }
      { chroma := some "100000000000" }).1 (by decide),
    (c7_subset_superset_laws env0 { chroma := some "110000000000" }
      { chroma := some "110000000000" }).2 (by decide)⟩

/-- C10: the empty set is a strict subset of every non-empty accepted
input — `isSubsetOf A empty` is true whenever A's pcnum is nonzero — and
the empty set is not a strict subset of itself. -/
theorem c10_empty_strict_subset (env : Env) (A : PcInit)
    (h : (PC env A).pcnum ≠ 0) :
    isSubsetOf env A { chroma := some emptyChroma } = true ∧
    isSubsetOf env { chroma := some emptyChroma }
      { chroma := some emptyChroma } = false := by
  have h0 : (PC env { chroma := some emptyChroma }).pcnum = 0 := rfl
  constructor
  · simp only [isSubsetOf, h0, Bool.and_eq_true, decide_eq_true_eq]
    exact ⟨h, Nat.zero_and _⟩
  · simp [isSubsetOf, h0]

/-- Witness for C10 with A = {C}. -/
theorem c10_empty_strict_subset_witness :
    (PC env0 { chroma := some "100000000000" }).pcnum ≠ 0 ∧
    isSubsetOf env0 { chroma := some "100000000000" }
      { chroma := some emptyChroma } = true :=
  ⟨by decide,
    (c10_empty_strict_subset env0 { chroma := some "100000000000" }
      (by decide)).1⟩

theorem toBinAux_length_le :
    ∀ fuel n k, n ≤ fuel → n < 2 ^ (k + 1) →
      (toBinAux fuel n).length ≤ k + 1 := by
  intro fuel
  induction fuel with
  | zero =>
    intro n k _ _
    simp [toBinAux]
  | succ fuel ih =>
    intro n k hn hk
    by_cases h2 : n < 2
    · simp [toBinAux, if_pos h2]
    · have hk1 : 1 ≤ k := by
        by_contra hk0
        have : k = 0 := by omega
        subst this
        simp at hk
        omega
      simp only [toBinAux, if_neg h2, List.length_append,
        List.length_singleton]
      have hrec : n / 2 ≤ fuel := by
        have := Nat.div_lt_self (by omega : 0 < n) (by omega : 1 < 2)
        omega
      have hdiv : n / 2 < 2 ^ k := by
        rw [Nat.div_lt_iff_lt_mul (by omega : 0 < 2)]
        calc n < 2 ^ (k + 1) := hk
        _ = 2 ^ k * 2 := by rw [pow_succ]
      obtain ⟨j, rfl⟩ : ∃ j, k = j + 1 := ⟨k - 1, by omega⟩
      have := ih (n / 2) j hrec hdiv
      omega

theorem fromNum_valid {n : Int} (h0 : 0 ≤ n) (h1 : n ≤ 4095) :
    isChromaStr (fromNum n) = true := by
  rw [isChromaStr_iff]
  have hlen : (natToBinChars n.toNat).length ≤ 12 := by
    have hb : n.toNat < 2 ^ (11 + 1) := by
      have : n.toNat ≤ 4095 := by omega
      omega
    exact toBinAux_length_le n.toNat n.toNat 11 (le_refl _) hb
  constructor
  · show (padStartL 12 '0' (natToBinChars n.toNat)).length = 12
    unfold padStartL
    rw [List.length_append, List.length_replicate]
    omega
  · intro c hc
    rcases List.mem_append.mp hc with hr | hb
    · rw [List.eq_of_mem_replicate hr]
      rfl
    · rcases toBinAux_mem _ _ c hb with h | h <;> subst h <;> rfl

theorem fromNotesGo_length (env : Env) :
    ∀ (names : List String) (bits : List Nat),
      (fromNotesGo env names bits).length = bits.length := by
  intro names
  induction names with
  | nil => intro bits; rfl
  | cons x xs ih =>
    intro bits
    unfold fromNotesGo
    cases env.noteChroma x with
    | none => exact ih bits
    | some c => rw [ih (bits.set c.val 1), List.length_set]

theorem fromIntervalsGo_length (env : Env) :
    ∀ (names : List String) (bits : List Nat),
      (fromIntervalsGo env names bits).length = bits.length := by
  intro names
  induction names with
  | nil => intro bits; rfl
  | cons x xs ih =>
    intro bits
    unfold fromIntervalsGo
    cases env.ivlChroma x with
    | none => exact ih bits
    | some c => rw [ih (bits.set c.val 1), List.length_set]

theorem joinBits_valid {bits : List Nat} (hlen : bits.length = 12) :
    isChromaStr (joinBits bits) = true := by
  rw [isChromaStr_iff]
  constructor
  · show (bits.map fun b => if b == 1 then '1' else '0').length = 12
    rw [List.length_map, hlen]
  · intro c hc
    obtain ⟨b, _, hb⟩ := List.mem_map.mp hc
    rw [← hb]
    by_cases h1 : (b == 1) = true
    · rw [if_pos h1]; rfl
    · rw [if_neg h1]; rfl

theorem fromNotes_valid (env : Env) (set : List String) :
    isChromaStr (fromNotes env set) = true := by
  unfold fromNotes
  split
  · decide
  · exact joinBits_valid (by rw [fromNotesGo_length]; rfl)

theorem fromIntervals_valid (env : Env) (set : List String) :
    isChromaStr (fromIntervals env set) = true := by
  unfold fromIntervals
  split
  · decide
  · exact joinBits_valid (by rw [fromIntervalsGo_length]; rfl)

theorem PC_chroma_valid (env : Env) (init : PcInit) :
    isChromaStr (PC env init).chroma = true := by
  unfold PC PCc
  split
  · rename_i hc
    cases hcc : init.chroma with
    | none => rw [hcc] at hc; simp [isPcChroma] at hc
    | some s =>
      rw [hcc] at hc
      exact hc
  · split
    · rename_i hn
      cases hnn : init.pcnum with
      | none => rw [hnn] at hn; simp [isPcNum] at hn
      | some n =>
        rw [hnn] at hn
        simp only [isPcNum, Bool.and_eq_true, decide_eq_true_eq] at hn
        exact fromNum_valid hn.1 hn.2
    · split
      · exact fromNotes_valid env _
      · split
        · exact fromNotes_valid env _
        · split
          · exact fromIntervals_valid env _
          · split
            · exact fromIntervals_valid env _
            · decide

theorem mapWithIndexGo_dropNull (q : Nat → Bool) (g : Nat → String) :
    ∀ (l : List Char) (n : Nat),
      (mapWithIndexGo (fun i _ => if q i then none else some (g i))
        n l).reduceOption =
      ((List.range' n l.length).filter (fun i => !q i)).map g := by
  intro l
  induction l with
  | nil => intro n; rfl
  | cons x xs ih =>
    intro n
    simp only [mapWithIndexGo, List.length_cons, List.range'_succ,
      List.filter_cons]
    cases hq : q n with
    | true => simp [ih (n + 1)]
    | false => simp [ih (n + 1)]

theorem map_filter_comm (p : String → Bool) (g : Nat → String) :
    ∀ l : List Nat,
      (l.map g).filter p = (l.filter (fun i => p (g i))).map g := by
  intro l
  induction l with
  | nil => rfl
  | cons x xs ih =>
    simp only [List.map_cons, List.filter_cons]
    cases hp : p (g x) with
    | true => simp [ih]
    | false => simp [ih]

theorem rotateL_length {l : List Char} (i : Nat) (h : l.length = 12) :
    (rotateL i l).length = 12 := by
  unfold rotateL
  rw [List.length_append, List.length_drop, List.length_take, h]
  have : i % 12 < 12 := Nat.mod_lt i (by omega)
  omega

theorem rotateL_mem {l : List Char} {i : Nat} {x : Char}
    (h : x ∈ rotateL i l) : x ∈ l := by
  unfold rotateL at h
  rcases List.mem_append.mp h with hd | ht
  · exact List.mem_of_mem_drop hd
  · exact List.mem_of_mem_take ht

/-- C8: `modes(set, true)` returns exactly the left-rotations (rotation
indices 0..11, increasing) of the set's 12-character chroma whose first
character is '1', as chroma strings with the discarded rotations removed;
for chroma "101011010101" it returns exactly 7 rotations, each starting
with '1'. -/
theorem c8_modes_filtered_rotations :
    (∀ (env : Env) (set : PcInit),
      modes env set true =
        ((List.range 12).map
          (fun i => String.mk (rotateL i (PC env set).chroma.data))).filter
          (fun s => decide (s.data.head? = some '1'))) ∧
    (modes env0 { chroma := some "101011010101" } true).length = 7 ∧
    ((modes env0 { chroma := some "101011010101" } true).all
      (fun s => decide (s.data.head? = some '1'))) = true := by
  refine ⟨?_, by decide, by decide⟩
  intro env set
  have hv := PC_chroma_valid env set
  obtain ⟨hlen, hbin⟩ := (isChromaStr_iff _).mp hv
  show (mapWithIndexGo
      (fun i _ =>
        if true && ((rotateL i (PC env set).chroma.data).head? == some '0')
        then none
        else some (String.mk (rotateL i (PC env set).chroma.data)))
      0 (PC env set).chroma.data).reduceOption = _
  simp only [Bool.true_and]
  rw [mapWithIndexGo_dropNull
    (fun i => (rotateL i (PC env set).chroma.data).head? == some '0')
    (fun i => String.mk (rotateL i (PC env set).chroma.data))
    (PC env set).chroma.data 0]
  rw [hlen, ← List.range_eq_range', map_filter_comm]
  congr 1
  apply List.filter_congr
  intro i _
  cases hrot : rotateL i (PC env set).chroma.data with
  | nil =>
    have := rotateL_length i hlen
    rw [hrot] at this
    simp at this
  | cons c t =>
    have hc : c ∈ (PC env set).chroma.data :=
      rotateL_mem (hrot ▸ List.mem_cons_self c t)
    have hd := hbin c hc
    unfold binDigit at hd
    rw [Bool.or_eq_true, beq_iff_eq, beq_iff_eq] at hd
    rcases hd with h | h <;> subst h <;> rfl

end AnnMusicPc
